import Mathlib

/-!
Shallow embedding of the `lex_rule!` tokenizer engine of `src/lexr/src/lex_rule.rs`
(crate `lexr` of the `lexr-parsr` repository), with proofs checking the
specification's claims about its runtime behaviour.

The macro-generated iterator's `next` method (lines 71-132 of `lex_rule.rs`)
is modelled as a fuelled transition function over an explicit buffer state.
Regex compilation and matching are out of scope for the engine (the spec
treats a compiled matcher as an opaque capability returning the anchored
match at the start of the remaining text, if any), so a compiled rule is
modelled as a function from the remaining character list to the optional
number of matched characters; the matched text is then the corresponding
character-list head, and `mat.end()` is its UTF-8 byte length.
-/

namespace Lexr

/-- UTF-8 byte width of a character, as for Rust `char` in a `str`. -/
def charBytes (c : Char) : Nat :=
  if c.toNat < 0x80 then 1
  else if c.toNat < 0x800 then 2
  else if c.toNat < 0x10000 then 3
  else 4

/-- Total UTF-8 byte length of a character list (Rust `str::len`). -/
def utf8Len : List Char → Nat
  | [] => 0
  | c :: cs => charBytes c + utf8Len cs

/-- Modelled from the spec: `SrcLoc` (defined in the `lexr` crate root, which
is outside `src/`) is a pure value `(startLine, startCol), (endLine, endCol),
(startByte, endByte)`; `SrcLoc::new(start, end, range)` in `lex_rule.rs`
simply stores these six numbers. -/
structure SrcLoc where
  startLine : Nat
  startCol : Nat
  endLine : Nat
  endCol : Nat
  startByte : Nat
  endByte : Nat
deriving DecidableEq, Repr

/-- The shared lexer buffer (`lexr::LexBuf`): the remaining source slice, the
byte index of its start, the 1-based line/column, and the exhaustion flag.
The fields are exactly the ones `lex_rule.rs` reads and writes through
`self.buf` (`source`, `idx`, `line`, `col`, `empty`); the `RefCell`
indirection is dropped since execution is single-threaded. -/
structure LexBuf where
  source : List Char
  idx : Nat
  line : Nat
  col : Nat
  empty : Bool
deriving DecidableEq, Repr

/-- Modelled from the spec: the initial buffer for an input (`LexBuf::from`
lives in the `lexr` crate root, outside `src/`): whole input as `remaining`,
byte index 0, line and column 1, not exhausted.  The sibling implementation
`src/src/lex.rs` lines 55-65 initialises its state with exactly these
values. -/
def initBuf (s : List Char) : LexBuf :=
  ⟨s, 0, 1, 1, false⟩

/-- A rule's action: the closure after `=>` in a `lex_rule!` arm is either an
expression producing a token from the matched text, or the keyword
`continue`, which skips the match. -/
inductive LexAction (τ : Type) where
  | emit : (List Char → τ) → LexAction τ
  | skip : LexAction τ

/-- A compiled rule: an anchored matcher (opaque, per the spec) paired with
its action.  The matcher returns the number of characters of the matched
head of the remaining text, or `none` when the anchored pattern does not
match there. -/
structure Rule (τ : Type) where
  matcher : List Char → Option Nat
  action : LexAction τ

/-- The macro expands the rule list into a chain of `if let Some(mat) =
regex.find(&src)` tests in declaration order (lines 84-120): the first rule
whose matcher succeeds is taken.  Returns the rule's index, the rule, and
the matched character count. -/
def findRuleIdx {τ : Type} : List (Rule τ) → List Char → Option (Nat × Rule τ × Nat)
  | [], _ => none
  | r :: rs, s =>
    match r.matcher s with
    | some n => some (0, r, n)
    | none => (findRuleIdx rs s).map (fun p => (p.1 + 1, p.2))

/-- One step of the line/column bookkeeping (lines 99-104): a newline bumps
the line and resets the column to 1, any other character bumps the column. -/
def locStep (lc : Nat × Nat) (c : Char) : Nat × Nat :=
  if c = '\n' then (lc.1 + 1, 1) else (lc.1, lc.2 + 1)

/-- The position reached after consuming a list of characters. -/
def locFold (lc : Nat × Nat) (s : List Char) : Nat × Nat :=
  s.foldl locStep lc

/-- The loop `for i in 0..length` of lines 94-105: it pulls `count` characters
off the fresh iterator `src.chars()` (note: `count` is `mat.end()`, a byte
count), records `end` as the line/column just before consuming the last
pulled character, and threads the line/column updates.  `none` models the
`source_iter.next().unwrap()` panic when the iterator runs dry.  Returns
`(end, final line/col)`. -/
def consumeLoop : List Char → Nat → (Nat × Nat) → (Nat × Nat) → Option ((Nat × Nat) × (Nat × Nat))
  | _, 0, lc, e => some (e, lc)
  | [], Nat.succ _, _, _ => none
  | c :: cs, Nat.succ k, lc, e =>
    consumeLoop cs k (locStep lc c) (if k = 0 then lc else e)

/-- Outcome of one `next` call: `tok` is `Some((token, SrcLoc))` together with
the buffer state it leaves behind; `done` is `None`; `panicUnmatched` is the
`panic!("Unexpected character ...")` of line 127; `panicUnwrap` is the
`unwrap` panic inside the character loop; `noFuel` means the modelled fuel
ran out (the Rust loop has no bound). -/
inductive NextRes (τ : Type) where
  | tok : τ → SrcLoc → LexBuf → NextRes τ
  | done : LexBuf → NextRes τ
  | panicUnmatched : Char → SrcLoc → NextRes τ
  | panicUnwrap : NextRes τ
  | noFuel : NextRes τ
deriving DecidableEq, Repr

/-- The body of a successful rule match (lines 86-119), starting from the
buffer state at the top of the loop iteration.  `start_idx` is the byte
index read once at the entry of `next` (line 74) — it is NOT re-read after a
skip.  `length` is `mat.end()`: the byte length of the matched text.  The
source slice is advanced by the matched characters (`*src = &src[length..]`,
a byte slice at a character boundary), `idx` is set to `start_idx + length`,
and the action either returns `Some((token, loc))` (`.inl`) or continues the
loop with the new buffer (`.inr`, the `continue` of a skip arm). -/
def stepMatch {τ : Type} (start_idx : Nat) (buf : LexBuf) (r : Rule τ) (n : Nat) :
    (NextRes τ ⊕ LexBuf) :=
  let length := utf8Len (buf.source.take n)
  let start := (buf.line, buf.col)
  match consumeLoop buf.source length (buf.line, buf.col) start with
  | none => Sum.inl NextRes.panicUnwrap
  | some (e, lc) =>
    let buf' : LexBuf := ⟨buf.source.drop n, start_idx + length, lc.1, lc.2, buf.empty⟩
    match r.action with
    | LexAction.emit f =>
      Sum.inl (NextRes.tok (f (buf.source.take n))
        ⟨start.1, start.2, e.1, e.2, start_idx, start_idx + length⟩ buf')
    | LexAction.skip => Sum.inr buf'

/-- `if src.len() == 0 { *self.buf.empty.borrow_mut() = true; }` (line 82). -/
def markEmpty (buf : LexBuf) : LexBuf :=
  if buf.source.isEmpty then ⟨buf.source, buf.idx, buf.line, buf.col, true⟩ else buf

/-- The code after the loop (lines 125-131): when the loop broke, `matched`
is always false (it is reset at the top of every iteration and every break
happens before a match in that iteration), so the guard reduces to
`!self.buf.empty`: if the buffer is not exhausted and a character remains,
panic with that character and the current location; otherwise return
`None`. -/
def finishNext {τ : Type} (buf : LexBuf) : NextRes τ :=
  if buf.empty then NextRes.done buf
  else
    match buf.source with
    | c :: _ =>
      NextRes.panicUnmatched c ⟨buf.line, buf.col, buf.line, buf.col, buf.idx, buf.idx⟩
    | [] => NextRes.done buf

/-- Record of one fired match, for stating trace properties: the index of the
rule that fired, the remaining source at the moment of the match, and the
matched character count. -/
structure MatchRec where
  rule : Nat
  src : List Char
  len : Nat
deriving DecidableEq, Repr

/-- One iteration of the `loop` in `next` (lines 77-123): break out with a
result if the buffer is already exhausted; otherwise set the exhaustion flag
if the source just became empty, try the rules in declaration order, and on
a match run the match body.  `.inl` ends the call, `.inr` repeats the loop.
The second component records the fired match, if any. -/
def nextIter {τ : Type} (rules : List (Rule τ)) (start_idx : Nat) (buf : LexBuf) :
    (NextRes τ ⊕ LexBuf) × List MatchRec :=
  if buf.empty then (Sum.inl (finishNext buf), [])
  else
    let buf2 := markEmpty buf
    match findRuleIdx rules buf2.source with
    | none => (Sum.inl (finishNext buf2), [])
    | some (i, r, n) => (stepMatch start_idx buf2 r n, [⟨i, buf2.source, n⟩])

/-- The `loop` of `next`, fuelled: the Rust loop is unbounded, so a fuel
argument bounds the number of iterations; `noFuel` reports exhaustion of the
bound (which on the Rust side is an infinite loop).  Also accumulates the
trace of fired matches. -/
def nextLoop {τ : Type} (rules : List (Rule τ)) (start_idx : Nat) :
    Nat → LexBuf → NextRes τ × List MatchRec
  | 0, _ => (NextRes.noFuel, [])
  | Nat.succ fuel, buf =>
    match nextIter rules start_idx buf with
    | (Sum.inl res, recs) => (res, recs)
    | (Sum.inr buf', recs) =>
      let p := nextLoop rules start_idx fuel buf'
      (p.1, recs ++ p.2)

/-- One call of the generated `Iterator::next` (lines 71-132): `start_idx` is
read from the buffer once at entry; the loop gets fuel `|source| + 2`, which
suffices for every terminating execution (each iteration either consumes at
least one character, fires a zero-width match — after which the state either
repeats exactly or is exhausted — or breaks). -/
def nextCall {τ : Type} (rules : List (Rule τ)) (buf : LexBuf) : NextRes τ × List MatchRec :=
  nextLoop rules buf.idx (buf.source.length + 2) buf

/-- Outcome of driving the iterator to the end: the token/location pairs in
order, ended by clean exhaustion (`ok`), the unmatched-input panic
(`unmatched`), the character-loop unwrap panic (`unwrapPanic`), or fuel
exhaustion. -/
inductive LexOutcome (τ : Type) where
  | ok : List (τ × SrcLoc) → LexOutcome τ
  | unmatched : List (τ × SrcLoc) → Char → SrcLoc → LexOutcome τ
  | unwrapPanic : List (τ × SrcLoc) → LexOutcome τ
  | noFuel : LexOutcome τ
deriving DecidableEq, Repr

/-- Prepend an emitted pair to an outcome's token list. -/
def consOutcome {τ : Type} (p : τ × SrcLoc) : LexOutcome τ → LexOutcome τ
  | LexOutcome.ok l => LexOutcome.ok (p :: l)
  | LexOutcome.unmatched l c s => LexOutcome.unmatched (p :: l) c s
  | LexOutcome.unwrapPanic l => LexOutcome.unwrapPanic (p :: l)
  | LexOutcome.noFuel => LexOutcome.noFuel

/-- Modelled from the spec: the `Lexr` iteration wrapper (`lexr::Lexer` and
its `into_vec`, outside `src/`) repeatedly invokes `next` and collects the
`(Token, SrcLoc)` pairs until `None` or a panic.  The outer fuel bounds the
number of `next` calls.  Also accumulates the full match trace. -/
def lexAll {τ : Type} (rules : List (Rule τ)) :
    Nat → LexBuf → LexOutcome τ × List MatchRec
  | 0, _ => (LexOutcome.noFuel, [])
  | Nat.succ fuel, buf =>
    match nextCall rules buf with
    | (NextRes.tok t loc buf', tr) =>
      let p := lexAll rules fuel buf'
      (consOutcome (t, loc) p.1, tr ++ p.2)
    | (NextRes.done _, tr) => (LexOutcome.ok [], tr)
    | (NextRes.panicUnmatched c loc, tr) => (LexOutcome.unmatched [] c loc, tr)
    | (NextRes.panicUnwrap, tr) => (LexOutcome.unwrapPanic [], tr)
    | (NextRes.noFuel, tr) => (LexOutcome.noFuel, tr)

/-! ### The concrete matchers used by the claims

The sentinel matchers come from the `@regex_rule` arms of `lex_rule.rs`
(lines 148-167); the character-class matchers model the anchored greedy
regexes named by the claims. -/

/-- `@regex_rule ws` (lines 162-167): regex `^[ \n\r\t]`, one whitespace
character. -/
def wsMatcher (s : List Char) : Option Nat :=
  match s with
  | [] => none
  | c :: _ => if c = ' ' ∨ c = '\n' ∨ c = '\r' ∨ c = '\t' then some 1 else none

/-- `@regex_rule eof` (lines 155-160): regex `^\z`, a zero-width match that
succeeds exactly on the empty remaining text. -/
def eofMatcher (s : List Char) : Option Nat :=
  match s with
  | [] => some 0
  | _ :: _ => none

/-- `@regex_rule _` (lines 148-153): regex `(?s)^.`, any single character
including newline; fails only on empty remaining text. -/
def wildcardMatcher (s : List Char) : Option Nat :=
  match s with
  | [] => none
  | _ :: _ => some 1

/-- User pattern `"[0-9]+"` anchored to `^[0-9]+` (lines 169-178): the
longest (greedy) non-empty head of decimal digits. -/
def digitsMatcher (s : List Char) : Option Nat :=
  let n := (s.takeWhile Char.isDigit).length
  if n = 0 then none else some n

/-- User pattern `"[a-zA-Z]+"` anchored to `^[a-zA-Z]+`: the longest (greedy)
non-empty head of ASCII letters. -/
def lettersMatcher (s : List Char) : Option Nat :=
  let n := (s.takeWhile Char.isAlpha).length
  if n = 0 then none else some n

/-- `i.parse::<u32>().unwrap()` on a digit string: decimal value. -/
def parseNat (s : List Char) : Nat :=
  s.foldl (fun a c => 10 * a + (c.toNat - 48)) 0

/-- The token type of the spec's end-to-end example. -/
inductive ExToken where
  | Number : Nat → ExToken
  | Word : List Char → ExToken
  | EndOfFile : ExToken
deriving DecidableEq, Repr

/-- `ws => |_| continue`. -/
def wsSkipRule : Rule ExToken := ⟨wsMatcher, LexAction.skip⟩

/-- `"[0-9]+" => |i| Token::Number(i.parse().unwrap())`. -/
def numberRule : Rule ExToken := ⟨digitsMatcher, LexAction.emit (fun s => ExToken.Number (parseNat s))⟩

/-- `"[a-zA-Z]+" => |id| Token::Word(id.to_string())`. -/
def wordRule : Rule ExToken := ⟨lettersMatcher, LexAction.emit (fun s => ExToken.Word s)⟩

/-- `eof => |_| Token::EndOfFile`. -/
def eofEmitRule : Rule ExToken := ⟨eofMatcher, LexAction.emit (fun _ => ExToken.EndOfFile)⟩

/-- The rule table of the spec's end-to-end example:
`[whitespace → skip, "[0-9]+" → Number(parsed), "[a-zA-Z]+" → Word(text), eof → EndOfFile]`. -/
def c1Rules : List (Rule ExToken) := [wsSkipRule, numberRule, wordRule, eofEmitRule]

/-- The rule table of the spec's failure example: `["[0-9]+" → Number(parsed)]`. -/
def numRules : List (Rule ExToken) := [numberRule]

/-- A wildcard-only table: `[_ => |c| Token::Word(c.to_string())]`. -/
def wcRules : List (Rule ExToken) := [⟨wildcardMatcher, LexAction.emit (fun s => ExToken.Word s)⟩]

/-- A table whose first rule is a zero-width skip, as produced by the user
pattern `"a*"` (which matches the empty string at any position) with a
`continue` action. -/
def zwRules : List (Rule ExToken) :=
  [⟨fun s => some ((s.takeWhile (fun c => c = 'a')).length), LexAction.skip⟩]

/-- A table where an earlier rule makes a shorter match than a later one:
`[_ → Word, "[a-zA-Z]+" → Word]`. -/
def priRules : List (Rule ExToken) :=
  [⟨wildcardMatcher, LexAction.emit (fun s => ExToken.Word s)⟩, wordRule]

/-- The matched text of a recorded match: `mat.as_str()`. -/
def pieceOf (m : MatchRec) : List Char :=
  m.src.take m.len

/-- Concatenation of all matched texts of a trace. -/
def joinPieces (tr : List MatchRec) : List Char :=
  (tr.map pieceOf).flatten

/-- The byte spans of a trace's matches, laid out from a starting offset:
each match occupies the bytes of its matched text, starting where the
previous one ended. -/
def spanChain : Nat → List MatchRec → List (Nat × Nat)
  | _, [] => []
  | o, m :: ms => (o, o + utf8Len (pieceOf m)) :: spanChain (o + utf8Len (pieceOf m)) ms

/-- A span list is contiguous from `a` to `b`: every span starts where its
predecessor ended, the first starts at `a`, the last ends at `b`, with no
gaps and no overlaps. -/
def Contiguous : Nat → Nat → List (Nat × Nat) → Prop
  | a, b, [] => a = b
  | a, b, sp :: rest => sp.1 = a ∧ Contiguous sp.2 b rest

/-- A `next` call that runs out of every amount of fuel: the Rust loop never
exits. -/
def loopsForever {τ : Type} (rules : List (Rule τ)) (buf : LexBuf) : Prop :=
  ∀ fuel, (nextLoop rules buf.idx fuel buf).1 = NextRes.noFuel

/-! ### Theorems -/

/-- **C1** (code bug).  Running the example table
`[whitespace → skip, "[0-9]+" → Number, "[a-zA-Z]+" → Word, eof → EndOfFile]`
on `"123 abc"` does produce `Number(123)`, `Word("abc")`, `EndOfFile` with
the claimed line/column locations, but the byte ranges of the second and
third results are `3-6` and `6-6`, not the claimed `4-7` and `7-7`:
`start_idx` is read once at the entry of `next` (line 74 of `lex_rule.rs`)
and is stale after the whitespace skip, so the emitted byte range and the
stored byte index are shifted back by the width of the skipped text. -/
theorem c1_example_run :
    lexAll c1Rules 9 (initBuf (String.toList "123 abc")) =
      (LexOutcome.ok
        [(ExToken.Number 123, ⟨1, 1, 1, 3, 0, 3⟩),
         (ExToken.Word ['a', 'b', 'c'], ⟨1, 5, 1, 7, 3, 6⟩),
         (ExToken.EndOfFile, ⟨1, 8, 1, 8, 6, 6⟩)],
       [⟨1, String.toList "123 abc", 3⟩,
        ⟨0, String.toList " abc", 1⟩,
        ⟨2, String.toList "abc", 3⟩,
        ⟨3, [], 0⟩]) := by
  decide

/-- **C2** (code bug).  The invariant `byteIndex + length(remaining) =
totalInputLength` is broken after a `next` call in which a skip preceded the
emitting match: on input `" a"` with the example table, the call that skips
the space and emits `Word("a")` leaves `idx = 1` with empty remaining text,
although the input is 2 bytes long — the emitting match wrote
`start_idx + length` with the stale entry-time `start_idx` (lines 108-109 of
`lex_rule.rs`). -/
theorem c2_invariant_broken :
    (match (nextCall c1Rules (initBuf (String.toList " a"))).1 with
     | NextRes.tok _ _ b => some (b.idx + utf8Len b.source)
     | _ => none) = some 1 ∧
    utf8Len (String.toList " a") = 2 := by
  decide

/-- **C4** (code bug).  Line/column tracking is byte-counted, not
character-counted: the loop of lines 94-105 runs `mat.end()` (a byte count)
times while pulling characters.  With the wildcard table on input `"é"`
(one character, two bytes) the call panics on
`source_iter.next().unwrap()`; on input `"éa"` the single-character match
`'é'` leaves the column at 3 instead of 2, having consumed the following
`'a'` from the tracking iterator as well. -/
theorem c4_multibyte_broken :
    (nextCall wcRules (initBuf (String.toList "é"))).1 = NextRes.panicUnwrap ∧
    (match (nextCall wcRules (initBuf (String.toList "éa"))).1 with
     | NextRes.tok _ _ b => some (b.line, b.col)
     | _ => none) = some (1, 3) ∧
    some ((1 : Nat), (3 : Nat)) ≠ some ((1 : Nat), (2 : Nat)) := by
  decide

/-- **C7** (confirmed).  When the buffer is not exhausted, the remaining
input is non-empty and no rule's matcher succeeds, `next` panics with the
first remaining character and the current location (line/column and byte
index duplicated into a degenerate `SrcLoc`), emitting nothing — the
unmatched-input failure of lines 125-129 of `lex_rule.rs`, which is
terminal by construction. -/
theorem c7_unmatched_panic {τ : Type} (rules : List (Rule τ)) (st fl : Nat) (buf : LexBuf)
    (c : Char) (rest : List Char) (hemp : buf.empty = false) (hsrc : buf.source = c :: rest)
    (hfind : findRuleIdx rules buf.source = none) :
    nextLoop rules st (fl + 1) buf =
      (NextRes.panicUnmatched c ⟨buf.line, buf.col, buf.line, buf.col, buf.idx, buf.idx⟩, []) := by
  have hne : buf.source.isEmpty = false := by
    rw [hsrc]; rfl
  have hm : markEmpty buf = buf := by
    rw [markEmpty, hne]; rfl
  rw [nextLoop, nextIter, hemp]
  simp only [Bool.false_eq_true, if_false, hm, hfind]
  rw [finishNext, hemp]
  simp only [Bool.false_eq_true, if_false, hsrc]

/-- Witness for C7, at the state reached in the spec's failure example
(`["[0-9]+" → Number]` on `"12a"`, after `Number(12)` has been emitted):
the next call panics with `'a'` at location 1:3, byte index 2. -/
theorem c7_unmatched_panic_witness :
    nextLoop numRules 2 1 ⟨['a'], 2, 1, 3, false⟩ =
      (NextRes.panicUnmatched 'a' ⟨1, 3, 1, 3, 2, 2⟩, []) :=
  c7_unmatched_panic numRules 2 0 ⟨['a'], 2, 1, 3, false⟩ 'a' [] rfl rfl rfl

/-- **C8** (counterexample).  The end position recorded in an emitted
`SrcLoc` is not the position after the last consumed character: matching
`"[0-9]+"` against `"123"` records end `(1, 3)` — the position of the final
`'3'` — while the cursor after the match stands at `(1, 4)`. -/
theorem c8_counterexample :
    (match (nextCall numRules (initBuf (String.toList "123"))).1 with
     | NextRes.tok _ loc b => some ((loc.endLine, loc.endCol), (b.line, b.col))
     | _ => none) = some ((1, 3), (1, 4)) ∧
    ((1 : Nat), (3 : Nat)) ≠ ((1 : Nat), (4 : Nat)) := by
  decide

/-- **C10** (counterexample).  With the wildcard table `[_ → Word]` — which
does make the unmatched-input branch unreachable — it is still not true
that every `next` call emits, skips or reports exhaustion: on input `"aé"`
the run emits `Word("a")` and then the second call dies in the character
loop's `unwrap` panic (the byte-counted loop outruns the remaining single
character). -/
theorem c10_counterexample :
    (lexAll wcRules 5 (initBuf (String.toList "aé"))).1 =
      LexOutcome.unwrapPanic [(ExToken.Word ['a'], ⟨1, 1, 1, 1, 0, 1⟩)] := by
  decide

/-- **C9** (counterexample).  Tokenization does not always terminate: a rule
whose pattern can match the empty string (here the user pattern `"a*"`)
with a skip action makes the loop inside a single `next` call spin forever
on any remaining text it cannot consume — on input `"b"` the call exhausts
every amount of fuel. -/
theorem c9_counterexample : loopsForever zwRules (initBuf (String.toList "b")) := by
  intro fuel
  induction fuel with
  | zero => rfl
  | succ f ih =>
    have h2 : (nextLoop zwRules 0 (f + 1) (initBuf (String.toList "b"))).1
        = (nextLoop zwRules 0 f (initBuf (String.toList "b"))).1 := rfl
    exact h2.trans ih

/-- Soundness of the first-match scan: a returned triple names a rule that
is in the table at that index and whose matcher did succeed with that
length. -/
theorem findRuleIdx_sound {τ : Type} :
    ∀ (rules : List (Rule τ)) (s : List Char) (i : Nat) (r : Rule τ) (n : Nat),
      findRuleIdx rules s = some (i, r, n) → rules[i]? = some r ∧ r.matcher s = some n := by
  intro rules
  induction rules with
  | nil => intro s i r n h; simp [findRuleIdx] at h
  | cons r0 rs ih =>
    intro s i r n h
    rw [findRuleIdx] at h
    cases h0 : r0.matcher s with
    | some m =>
      rw [h0] at h
      cases h
      exact ⟨by simp, h0⟩
    | none =>
      rw [h0] at h
      rcases Option.map_eq_some'.mp h with ⟨a, hp, hf⟩
      rcases a with ⟨ia, ra, na⟩
      have hi : ia + 1 = i := congrArg Prod.fst hf
      have hrn : (ra, na) = (r, n) := congrArg Prod.snd hf
      have hr : ra = r := congrArg Prod.fst hrn
      have hn : na = n := congrArg Prod.snd hrn
      subst hi; subst hr; subst hn
      have := ih s ia ra na hp
      simpa using this

/-- If some rule of the table matches, the first-match scan succeeds. -/
theorem findRuleIdx_isSome {τ : Type} :
    ∀ (rules : List (Rule τ)) (s : List Char) (j : Nat) (rj : Rule τ) (m : Nat),
      rules[j]? = some rj → rj.matcher s = some m → (findRuleIdx rules s).isSome = true := by
  intro rules
  induction rules with
  | nil => intro s j rj m hj _; simp at hj
  | cons r0 rs ih =>
    intro s j rj m hj hm
    cases h0 : r0.matcher s with
    | some k => simp [findRuleIdx, h0]
    | none =>
      cases j with
      | zero =>
        simp only [List.getElem?_cons_zero, Option.some.injEq] at hj
        rw [hj] at h0
        rw [h0] at hm
        cases hm
      | succ j' =>
        simp only [List.getElem?_cons_succ] at hj
        have := ih s j' rj m hj hm
        simp [findRuleIdx, h0, this]

/-- The fired index never exceeds the index of any matching rule. -/
theorem findRuleIdx_le {τ : Type} :
    ∀ (rules : List (Rule τ)) (s : List Char) (j : Nat) (rj : Rule τ) (m : Nat)
      (i : Nat) (r : Rule τ) (n : Nat),
      rules[j]? = some rj → rj.matcher s = some m →
      findRuleIdx rules s = some (i, r, n) → i ≤ j := by
  intro rules
  induction rules with
  | nil => intro s j rj m i r n hj _ _; simp at hj
  | cons r0 rs ih =>
    intro s j rj m i r n hj hm hfind
    rw [findRuleIdx] at hfind
    cases h0 : r0.matcher s with
    | some k =>
      rw [h0] at hfind
      cases hfind
      exact Nat.zero_le j
    | none =>
      rw [h0] at hfind
      rcases Option.map_eq_some'.mp hfind with ⟨a, hp, hf⟩
      rcases a with ⟨ia, ra, na⟩
      have hi : ia + 1 = i := congrArg Prod.fst hf
      subst hi
      cases j with
      | zero =>
        simp only [List.getElem?_cons_zero, Option.some.injEq] at hj
        rw [hj] at h0
        rw [h0] at hm
        cases hm
      | succ j' =>
        simp only [List.getElem?_cons_succ] at hj
        exact Nat.succ_le_succ (ih s j' rj m ia ra na hj hm hp)

/-- Every rule before the fired one failed to match. -/
theorem findRuleIdx_min {τ : Type} :
    ∀ (rules : List (Rule τ)) (s : List Char) (i : Nat) (r : Rule τ) (n : Nat),
      findRuleIdx rules s = some (i, r, n) →
      ∀ k rk, k < i → rules[k]? = some rk → rk.matcher s = none := by
  intro rules
  induction rules with
  | nil => intro s i r n h; simp [findRuleIdx] at h
  | cons r0 rs ih =>
    intro s i r n hfind k rk hk hkth
    rw [findRuleIdx] at hfind
    cases h0 : r0.matcher s with
    | some m =>
      rw [h0] at hfind
      cases hfind
      exact absurd hk (Nat.not_lt_zero k)
    | none =>
      rw [h0] at hfind
      rcases Option.map_eq_some'.mp hfind with ⟨a, hp, hf⟩
      rcases a with ⟨ia, ra, na⟩
      have hi : ia + 1 = i := congrArg Prod.fst hf
      subst hi
      cases k with
      | zero =>
        simp only [List.getElem?_cons_zero, Option.some.injEq] at hkth
        rw [← hkth]
        exact h0
      | succ k' =>
        simp only [List.getElem?_cons_succ] at hkth
        exact ih s ia ra na hp k' rk (Nat.lt_of_succ_lt_succ hk) hkth

/-- `markEmpty` only touches the exhaustion flag. -/
theorem markEmpty_source (buf : LexBuf) : (markEmpty buf).source = buf.source := by
  unfold markEmpty
  split <;> rfl

/-- **C5** (confirmed).  Matching is first-match-by-declaration-order at the
current position, never longest-match: whenever the rule at index `j` could
match (with any length `m`), the scan fires, and it fires the rule at the
least index whose matcher succeeds — every earlier rule fails — regardless
of the competing match lengths; and a non-exhausted `next` iteration
dispatches the match body on exactly that rule. -/
theorem c5_priority {τ : Type} (rules : List (Rule τ)) (s : List Char) (j : Nat)
    (rj : Rule τ) (m : Nat) (hj : rules[j]? = some rj) (hm : rj.matcher s = some m) :
    (findRuleIdx rules s).isSome = true ∧
    ∀ i r n, findRuleIdx rules s = some (i, r, n) →
      i ≤ j ∧ rules[i]? = some r ∧ r.matcher s = some n ∧
      (∀ k rk, k < i → rules[k]? = some rk → rk.matcher s = none) ∧
      ∀ st (buf : LexBuf), buf.empty = false → buf.source = s →
        nextIter rules st buf = (stepMatch st (markEmpty buf) r n, [⟨i, s, n⟩]) := by
  refine ⟨findRuleIdx_isSome rules s j rj m hj hm, ?_⟩
  intro i r n hfind
  rcases findRuleIdx_sound rules s i r n hfind with ⟨hget, hmat⟩
  refine ⟨findRuleIdx_le rules s j rj m i r n hj hm hfind,
    hget, hmat, findRuleIdx_min rules s i r n hfind, ?_⟩
  intro st buf hemp hsrc
  have hs2 : (markEmpty buf).source = s := by rw [markEmpty_source, hsrc]
  rw [nextIter, hemp]
  simp only [Bool.false_eq_true, if_false, hs2, hfind]

/-- Witness for C5: in the table `[_ → Word, "[a-zA-Z]+" → Word]` on input
`"ab"`, the second rule matches two characters, so the scan succeeds (and
by the theorem it fires the earlier wildcard rule with its one-character
match). -/
theorem c5_priority_witness : (findRuleIdx priRules (String.toList "ab")).isSome = true :=
  (c5_priority priRules (String.toList "ab") 1 wordRule 2 rfl (by decide)).1

/-- Characterisation of the character loop when it succeeds: pulling `k + 1`
characters from a source of at least that many characters yields as `end`
the position after the first `k` characters — the position at which the
last pulled character starts — and as final position the one after all
`k + 1` characters. -/
theorem consumeLoop_eq :
    ∀ (k : Nat) (s : List Char) (lc e : Nat × Nat), k + 1 ≤ s.length →
      consumeLoop s (k + 1) lc e =
        some (locFold lc (s.take k), locFold lc (s.take (k + 1))) := by
  intro k
  induction k with
  | zero =>
    intro s lc e hlen
    cases s with
    | nil => simp at hlen
    | cons c cs => simp [consumeLoop, locFold]
  | succ k ih =>
    intro s lc e hlen
    cases s with
    | nil => simp at hlen
    | cons c cs =>
      have hlen2 : k + 1 ≤ cs.length := by
        simpa using Nat.lt_of_succ_lt_succ (Nat.lt_of_succ_le (Nat.succ_le_succ hlen))
      have hne : k + 1 ≠ 0 := Nat.succ_ne_zero k
      rw [consumeLoop, if_neg hne, ih cs (locStep lc c) e hlen2]
      simp [locFold]

/-- **C8** (corrected).  For a successful match of byte length at least one
(and with enough characters left for the byte-counted loop), the end
position recorded in the produced `SrcLoc` is the position at which the
last consumed character starts — the position reached after all but the
last loop iteration — while the cursor afterwards stands one step further:
the recorded end is NOT the position after the last consumed character. -/
theorem c8_end_at_last_char {τ : Type} (st : Nat) (buf : LexBuf) (r : Rule τ) (n : Nat)
    (t : τ) (loc : SrcLoc) (b' : LexBuf)
    (hL1 : 1 ≤ utf8Len (buf.source.take n))
    (hLlen : utf8Len (buf.source.take n) ≤ buf.source.length)
    (hstep : stepMatch st buf r n = Sum.inl (NextRes.tok t loc b')) :
    (loc.endLine, loc.endCol) =
      locFold (buf.line, buf.col) (buf.source.take (utf8Len (buf.source.take n) - 1)) ∧
    (b'.line, b'.col) =
      locFold (buf.line, buf.col) (buf.source.take (utf8Len (buf.source.take n))) := by
  rcases Nat.exists_eq_add_of_le hL1 with ⟨k, hk⟩
  rw [Nat.add_comm] at hk
  rw [stepMatch] at hstep
  simp only at hstep
  rw [hk, consumeLoop_eq k buf.source (buf.line, buf.col) (buf.line, buf.col)
    (by rw [← hk]; exact hLlen)] at hstep
  cases hact : r.action with
  | skip => rw [hact] at hstep; cases hstep
  | emit f =>
    rw [hact] at hstep
    have hloc : loc = ⟨buf.line, buf.col,
        (locFold (buf.line, buf.col) (buf.source.take k)).1,
        (locFold (buf.line, buf.col) (buf.source.take k)).2,
        st, st + utf8Len (buf.source.take n)⟩ := by
      cases hstep; rw [hk]
    have hb : b' = ⟨buf.source.drop n, st + utf8Len (buf.source.take n),
        (locFold (buf.line, buf.col) (buf.source.take (k + 1))).1,
        (locFold (buf.line, buf.col) (buf.source.take (k + 1))).2,
        buf.empty⟩ := by
      cases hstep; rw [hk]
    rw [hloc, hb, hk]
    simp [Nat.add_sub_cancel]

/-- Witness for C8's corrected statement: matching `"[0-9]+"` on `"123"`
records end position `(1, 3)` — the position of the `'3'` — while the
cursor ends at `(1, 4)`. -/
theorem c8_end_at_last_char_witness :
    ((1 : Nat), (3 : Nat)) = locFold (1, 1) (String.toList "12") ∧
    ((1 : Nat), (4 : Nat)) = locFold (1, 1) (String.toList "123") :=
  c8_end_at_last_char 0 (initBuf (String.toList "123")) numberRule 3
    (ExToken.Number 123) ⟨1, 1, 1, 3, 0, 3⟩ ⟨[], 3, 1, 4, false⟩
    (by decide) (by decide) (by decide)

/-- The match body never produces the unmatched-input panic: it either
returns a token, dies in the character-loop `unwrap`, or continues the
loop. -/
theorem stepMatch_no_unmatched {τ : Type} (st : Nat) (buf : LexBuf) (r : Rule τ) (n : Nat)
    (c : Char) (loc : SrcLoc) :
    stepMatch st buf r n ≠ Sum.inl (NextRes.panicUnmatched c loc) := by
  rw [stepMatch]
  cases hcl : consumeLoop buf.source (utf8Len (buf.source.take n)) (buf.line, buf.col)
      (buf.line, buf.col) with
  | none => intro h; cases h
  | some p =>
    cases r.action with
    | emit f => intro h; cases h
    | skip => intro h; cases h

/-- Unfolding `nextLoop` at successor fuel when the iteration ends the call. -/
theorem nextLoop_succ_inl {τ : Type} {rules : List (Rule τ)} {st : Nat} {buf : LexBuf}
    {res : NextRes τ} {recs : List MatchRec} (f : Nat)
    (h : nextIter rules st buf = (Sum.inl res, recs)) :
    nextLoop rules st (f + 1) buf = (res, recs) := by
  rw [nextLoop, h]

/-- Unfolding `nextLoop` at successor fuel when the iteration continues. -/
theorem nextLoop_succ_inr {τ : Type} {rules : List (Rule τ)} {st : Nat} {buf : LexBuf}
    {buf2 : LexBuf} {recs : List MatchRec} (f : Nat)
    (h : nextIter rules st buf = (Sum.inr buf2, recs)) :
    nextLoop rules st (f + 1) buf =
      ((nextLoop rules st f buf2).1, recs ++ (nextLoop rules st f buf2).2) := by
  rw [nextLoop, h]

/-- An iteration on an already exhausted buffer breaks out with `None`. -/
theorem nextIter_empty {τ : Type} (rules : List (Rule τ)) (st : Nat) (buf : LexBuf)
    (hemp : buf.empty = true) :
    nextIter rules st buf = (Sum.inl (NextRes.done buf), []) := by
  rw [nextIter, hemp]
  simp only [if_true]
  rw [finishNext, hemp]
  simp only [if_true]

/-- An iteration on a live buffer where no rule matches breaks out through
the post-loop check. -/
theorem nextIter_none {τ : Type} (rules : List (Rule τ)) (st : Nat) (buf : LexBuf)
    (hemp : buf.empty = false)
    (hfind : findRuleIdx rules (markEmpty buf).source = none) :
    nextIter rules st buf = (Sum.inl (finishNext (markEmpty buf)), []) := by
  rw [nextIter, hemp]
  simp only [Bool.false_eq_true, if_false, hfind]

/-- An iteration on a live buffer where the scan fires runs the match body. -/
theorem nextIter_some {τ : Type} (rules : List (Rule τ)) (st : Nat) (buf : LexBuf)
    (i n : Nat) (r : Rule τ) (hemp : buf.empty = false)
    (hfind : findRuleIdx rules (markEmpty buf).source = some (i, r, n)) :
    nextIter rules st buf =
      (stepMatch st (markEmpty buf) r n, [⟨i, (markEmpty buf).source, n⟩]) := by
  rw [nextIter, hemp]
  simp only [Bool.false_eq_true, if_false, hfind]

/-- When the source just ran out, `markEmpty` raises the exhaustion flag. -/
theorem markEmpty_empty_of_nil (buf : LexBuf) (h : buf.source = []) :
    (markEmpty buf).empty = true := by
  rw [markEmpty, h]
  rfl

/-- When characters remain, `markEmpty` is the identity. -/
theorem markEmpty_of_cons (buf : LexBuf) (c : Char) (rest : List Char)
    (h : buf.source = c :: rest) : markEmpty buf = buf := by
  rw [markEmpty, h]
  rfl

/-- On an exhausted buffer the post-loop check returns `None`. -/
theorem finishNext_empty {τ : Type} (buf : LexBuf) (h : buf.empty = true) :
    finishNext (τ := τ) buf = NextRes.done buf := by
  rw [finishNext, h]
  simp only [if_true]

/-- **C10** (corrected).  If the table contains a rule whose matcher succeeds
on every non-empty remaining text (as the wildcard `_` rule, regex
`(?s)^.`, does), the unmatched-input failure branch is unreachable: no
`next` call ever returns the unexpected-character panic, and the collected
outcome is never `unmatched`.  (The run may still die in the character
loop's `unwrap` panic, or fail to terminate — see C4 and C9 — so it is not
true that every call emits, skips or reports exhaustion.) -/
theorem c10_no_unmatched {τ : Type} (rules : List (Rule τ))
    (hw : ∃ w, w ∈ rules ∧ ∀ s : List Char, s ≠ [] → (w.matcher s).isSome = true) :
    (∀ (fuel st : Nat) (buf : LexBuf) (c : Char) (loc : SrcLoc),
      (nextLoop rules st fuel buf).1 ≠ NextRes.panicUnmatched c loc) ∧
    (∀ (fuel : Nat) (buf : LexBuf) (toks : List (τ × SrcLoc)) (c : Char) (loc : SrcLoc),
      (lexAll rules fuel buf).1 ≠ LexOutcome.unmatched toks c loc) := by
  rcases hw with ⟨w, hwmem, hwall⟩
  rcases List.mem_iff_getElem?.mp hwmem with ⟨jw, hjw⟩
  have hscan : ∀ s : List Char, s ≠ [] → (findRuleIdx rules s).isSome = true := by
    intro s hs
    cases hms : w.matcher s with
    | none =>
      have := hwall s hs
      rw [hms] at this
      cases this
    | some m => exact findRuleIdx_isSome rules s jw w m hjw hms
  have hnext : ∀ (fuel st : Nat) (buf : LexBuf) (c : Char) (loc : SrcLoc),
      (nextLoop rules st fuel buf).1 ≠ NextRes.panicUnmatched c loc := by
    intro fuel st
    induction fuel with
    | zero => intro buf c loc h; cases h
    | succ f ih =>
      intro buf c loc
      cases hemp : buf.empty with
      | true =>
        rw [nextLoop_succ_inl f (nextIter_empty rules st buf hemp)]
        intro h; cases h
      | false =>
        cases hfind : findRuleIdx rules (markEmpty buf).source with
        | none =>
          rw [nextLoop_succ_inl f (nextIter_none rules st buf hemp hfind)]
          cases hsrc : buf.source with
          | nil =>
            rw [finishNext_empty (markEmpty buf) (markEmpty_empty_of_nil buf hsrc)]
            intro h; cases h
          | cons c0 rest =>
            have hne : (markEmpty buf).source ≠ [] := by
              rw [markEmpty_source, hsrc]
              intro h; cases h
            have := hscan (markEmpty buf).source hne
            rw [hfind] at this
            cases this
        | some p =>
          rcases p with ⟨i, r, n⟩
          cases hsm : stepMatch st (markEmpty buf) r n with
          | inl res =>
            have hiter := nextIter_some rules st buf i n r hemp hfind
            rw [hsm] at hiter
            rw [nextLoop_succ_inl f hiter]
            intro h
            have h2 : res = NextRes.panicUnmatched c loc := h
            rw [h2] at hsm
            exact stepMatch_no_unmatched st (markEmpty buf) r n c loc hsm
          | inr buf2 =>
            have hiter := nextIter_some rules st buf i n r hemp hfind
            rw [hsm] at hiter
            rw [nextLoop_succ_inr f hiter]
            exact ih buf2 c loc
  refine ⟨hnext, ?_⟩
  intro fuel
  induction fuel with
  | zero => intro buf toks c loc h; cases h
  | succ f ih =>
    intro buf toks c loc
    rw [lexAll]
    cases hnc : nextCall rules buf with
    | mk res tr =>
      cases res with
      | tok t loc2 buf2 =>
        simp only
        cases ho : (lexAll rules f buf2).1 with
        | ok l => rw [consOutcome]; intro h; cases h
        | unmatched l c2 s2 => exact absurd ho (ih buf2 l c2 s2)
        | unwrapPanic l => rw [consOutcome]; intro h; cases h
        | noFuel => rw [consOutcome]; intro h; cases h
      | done b => intro h; cases h
      | panicUnmatched c2 loc2 =>
        have : (nextLoop rules buf.idx (buf.source.length + 2) buf).1 =
            NextRes.panicUnmatched c2 loc2 := by
          rw [nextCall] at hnc
          rw [hnc]
        exact absurd this (hnext (buf.source.length + 2) buf.idx buf c2 loc2)
      | panicUnwrap => intro h; cases h
      | noFuel => intro h; cases h

/-- Witness for C10's corrected statement: with the wildcard table, the
first call on `"x"` cannot be the unexpected-character panic. -/
theorem c10_no_unmatched_witness :
    (nextLoop wcRules 0 3 (initBuf (String.toList "x"))).1 ≠
      NextRes.panicUnmatched 'x' ⟨1, 1, 1, 1, 0, 0⟩ :=
  (c10_no_unmatched wcRules
    ⟨⟨wildcardMatcher, LexAction.emit (fun s => ExToken.Word s)⟩,
      List.mem_cons_self _ _,
      fun s hs => by
        cases s with
        | nil => exact absurd rfl hs
        | cons c cs => rfl⟩).1 3 0 (initBuf (String.toList "x")) 'x' ⟨1, 1, 1, 1, 0, 0⟩

/-- On a live buffer with an unmatched character remaining, the post-loop
check panics. -/
theorem finishNext_panic {τ : Type} (buf : LexBuf) (c : Char) (rest : List Char)
    (hemp : buf.empty = false) (hsrc : buf.source = c :: rest) :
    finishNext (τ := τ) buf =
      NextRes.panicUnmatched c ⟨buf.line, buf.col, buf.line, buf.col, buf.idx, buf.idx⟩ := by
  rw [finishNext, hemp]
  simp only [Bool.false_eq_true, if_false, hsrc]

/-- What an ended match body can be: either a token whose buffer dropped the
matched characters and kept the exhaustion flag, or the unwrap panic. -/
theorem stepMatch_inl_cases {τ : Type} (st : Nat) (buf : LexBuf) (r : Rule τ) (n : Nat)
    (res : NextRes τ) (h : stepMatch st buf r n = Sum.inl res) :
    (∃ t loc b', res = NextRes.tok t loc b' ∧
      b'.source = buf.source.drop n ∧ b'.empty = buf.empty) ∨
    res = NextRes.panicUnwrap := by
  rw [stepMatch] at h
  cases hcl : consumeLoop buf.source (utf8Len (buf.source.take n)) (buf.line, buf.col)
      (buf.line, buf.col) with
  | none =>
    rw [hcl] at h
    cases h
    exact Or.inr rfl
  | some p =>
    rw [hcl] at h
    cases hact : r.action with
    | emit f =>
      rw [hact] at h
      cases h
      exact Or.inl ⟨_, _, _, rfl, rfl, rfl⟩
    | skip =>
      rw [hact] at h
      cases h

/-- A continuing match body dropped the matched characters and kept the
exhaustion flag. -/
theorem stepMatch_inr {τ : Type} (st : Nat) (buf : LexBuf) (r : Rule τ) (n : Nat)
    (b2 : LexBuf) (h : stepMatch st buf r n = Sum.inr b2) :
    b2.source = buf.source.drop n ∧ b2.empty = buf.empty := by
  rw [stepMatch] at h
  cases hcl : consumeLoop buf.source (utf8Len (buf.source.take n)) (buf.line, buf.col)
      (buf.line, buf.col) with
  | none =>
    rw [hcl] at h
    cases h
  | some p =>
    rw [hcl] at h
    cases hact : r.action with
    | emit f =>
      rw [hact] at h
      cases h
    | skip =>
      rw [hact] at h
      cases h
      exact ⟨rfl, rfl⟩

/-- `markEmpty` preserves the invariant that an exhausted buffer has no
source left, and establishes it on a live buffer. -/
theorem markEmpty_inv (buf : LexBuf) (hemp : buf.empty = false) :
    (markEmpty buf).empty = true → (markEmpty buf).source = [] := by
  intro h
  cases hsrc : buf.source with
  | nil => rw [markEmpty_source, hsrc]
  | cons c rest =>
    rw [markEmpty_of_cons buf c rest hsrc] at h
    rw [hemp] at h
    cases h

/-- `joinPieces` of the empty trace. -/
theorem joinPieces_nil : joinPieces [] = [] :=
  rfl

/-- `joinPieces` distributes over list append. -/
theorem joinPieces_append (a b : List MatchRec) :
    joinPieces (a ++ b) = joinPieces a ++ joinPieces b := by
  simp [joinPieces]

/-- `joinPieces` on a cons. -/
theorem joinPieces_cons (m : MatchRec) (tr : List MatchRec) :
    joinPieces (m :: tr) = pieceOf m ++ joinPieces tr := by
  simp [joinPieces]

/-- Single-call coverage: within one `next` call, the concatenation of the
matched texts recorded by the trace, followed by the source left in the
returned buffer (for a token) or nothing (for clean exhaustion), is exactly
the source the call started from; and the returned buffer keeps the
exhausted-implies-empty-source invariant. -/
theorem nextLoop_pieces {τ : Type} (rules : List (Rule τ)) (st : Nat) :
    ∀ (fl : Nat) (buf : LexBuf) (res : NextRes τ) (tr : List MatchRec),
      (buf.empty = true → buf.source = []) →
      nextLoop rules st fl buf = (res, tr) →
      (∀ t loc b', res = NextRes.tok t loc b' →
        joinPieces tr ++ b'.source = buf.source ∧ (b'.empty = true → b'.source = [])) ∧
      (∀ b, res = NextRes.done b → joinPieces tr = buf.source) := by
  intro fl
  induction fl with
  | zero =>
    intro buf res tr hinv h
    rw [nextLoop] at h
    cases h
    refine ⟨?_, ?_⟩
    · intro t loc b' heq; cases heq
    · intro b heq; cases heq
  | succ f ih =>
    intro buf res tr hinv h
    cases hemp : buf.empty with
    | true =>
      rw [nextLoop_succ_inl f (nextIter_empty rules st buf hemp)] at h
      cases h
      refine ⟨?_, ?_⟩
      · intro t loc b' heq; cases heq
      · intro b heq
        rw [joinPieces]
        simp [hinv hemp]
    | false =>
      cases hfind : findRuleIdx rules (markEmpty buf).source with
      | none =>
        rw [nextLoop_succ_inl f (nextIter_none rules st buf hemp hfind)] at h
        cases hsrc : buf.source with
        | nil =>
          rw [finishNext_empty (markEmpty buf) (markEmpty_empty_of_nil buf hsrc)] at h
          cases h
          refine ⟨?_, ?_⟩
          · intro t loc b' heq; cases heq
          · intro b heq
            rw [joinPieces]
            simp [hsrc]
        | cons c rest =>
          rw [markEmpty_of_cons buf c rest hsrc] at h
          rw [finishNext_panic buf c rest hemp hsrc] at h
          cases h
          refine ⟨?_, ?_⟩
          · intro t loc b' heq; cases heq
          · intro b heq; cases heq
      | some p =>
        rcases p with ⟨i, r, n⟩
        have hms : (markEmpty buf).source = buf.source := markEmpty_source buf
        cases hsm : stepMatch st (markEmpty buf) r n with
        | inl res0 =>
          have hiter := nextIter_some rules st buf i n r hemp hfind
          rw [hsm] at hiter
          rw [nextLoop_succ_inl f hiter] at h
          rcases stepMatch_inl_cases st (markEmpty buf) r n res0 hsm with
            ⟨t0, loc0, b0, heq0, hbsrc, hbemp⟩ | heq0
          · subst heq0
            cases h
            refine ⟨?_, ?_⟩
            · intro t loc b' heq
              cases heq
              refine ⟨?_, ?_⟩
              · rw [joinPieces_cons, joinPieces_nil, List.append_nil, pieceOf, hbsrc]
                simp only [hms]
                exact List.take_append_drop n buf.source
              · intro hbe
                rw [hbemp] at hbe
                rw [hbsrc, markEmpty_inv buf hemp hbe]
                exact List.drop_nil
            · intro b heq
              cases heq
          · subst heq0
            cases h
            refine ⟨?_, ?_⟩
            · intro t loc b' heq; cases heq
            · intro b heq; cases heq
        | inr b2 =>
          have hiter := nextIter_some rules st buf i n r hemp hfind
          rw [hsm] at hiter
          rw [nextLoop_succ_inr f hiter] at h
          rcases stepMatch_inr st (markEmpty buf) r n b2 hsm with ⟨hbsrc, hbemp⟩
          have hinv2 : b2.empty = true → b2.source = [] := by
            intro hbe
            rw [hbemp] at hbe
            rw [hbsrc, markEmpty_inv buf hemp hbe]
            exact List.drop_nil
          cases hrec : nextLoop rules st f b2 with
          | mk res2 tr2 =>
            rw [hrec] at h
            cases h
            rcases ih b2 res2 tr2 hinv2 hrec with ⟨ihtok, ihdone⟩
            refine ⟨?_, ?_⟩
            · intro t loc b' heq
              rcases ihtok t loc b' heq with ⟨hjoin, hbinv⟩
              refine ⟨?_, hbinv⟩
              show joinPieces (⟨i, (markEmpty buf).source, n⟩ :: tr2) ++ b'.source = buf.source
              rw [joinPieces_cons, List.append_assoc, hjoin, hbsrc, pieceOf]
              simp only [hms]
              exact List.take_append_drop n buf.source
            · intro b heq
              show joinPieces (⟨i, (markEmpty buf).source, n⟩ :: tr2) = buf.source
              rw [joinPieces_cons, ihdone b heq, hbsrc, pieceOf]
              simp only [hms]
              exact List.take_append_drop n buf.source

/-- Unfolding `lexAll` after a call that returned a token. -/
theorem lexAll_succ_tok {τ : Type} {rules : List (Rule τ)} {buf : LexBuf} {t : τ}
    {loc : SrcLoc} {b2 : LexBuf} {tr1 : List MatchRec} (f : Nat)
    (h : nextCall rules buf = (NextRes.tok t loc b2, tr1)) :
    lexAll rules (f + 1) buf =
      (consOutcome (t, loc) (lexAll rules f b2).1, tr1 ++ (lexAll rules f b2).2) := by
  rw [lexAll, h]

/-- Unfolding `lexAll` after a call that reported clean exhaustion. -/
theorem lexAll_succ_done {τ : Type} {rules : List (Rule τ)} {buf : LexBuf} {b : LexBuf}
    {tr1 : List MatchRec} (f : Nat) (h : nextCall rules buf = (NextRes.done b, tr1)) :
    lexAll rules (f + 1) buf = (LexOutcome.ok [], tr1) := by
  rw [lexAll, h]

/-- Unfolding `lexAll` after a call that hit the unmatched-input panic. -/
theorem lexAll_succ_unmatched {τ : Type} {rules : List (Rule τ)} {buf : LexBuf} {c : Char}
    {loc : SrcLoc} {tr1 : List MatchRec} (f : Nat)
    (h : nextCall rules buf = (NextRes.panicUnmatched c loc, tr1)) :
    lexAll rules (f + 1) buf = (LexOutcome.unmatched [] c loc, tr1) := by
  rw [lexAll, h]

/-- Unfolding `lexAll` after a call that hit the unwrap panic. -/
theorem lexAll_succ_unwrap {τ : Type} {rules : List (Rule τ)} {buf : LexBuf}
    {tr1 : List MatchRec} (f : Nat) (h : nextCall rules buf = (NextRes.panicUnwrap, tr1)) :
    lexAll rules (f + 1) buf = (LexOutcome.unwrapPanic [], tr1) := by
  rw [lexAll, h]

/-- Unfolding `lexAll` after a call that ran out of fuel. -/
theorem lexAll_succ_nofuel {τ : Type} {rules : List (Rule τ)} {buf : LexBuf}
    {tr1 : List MatchRec} (f : Nat) (h : nextCall rules buf = (NextRes.noFuel, tr1)) :
    lexAll rules (f + 1) buf = (LexOutcome.noFuel, tr1) := by
  rw [lexAll, h]

/-- Whole-run coverage: when the run ends in clean exhaustion, the matched
texts of the trace concatenate to the source the run started from. -/
theorem lexAll_pieces {τ : Type} (rules : List (Rule τ)) :
    ∀ (fl : Nat) (buf : LexBuf), (buf.empty = true → buf.source = []) →
      ∀ (toks : List (τ × SrcLoc)) (tr : List MatchRec),
        lexAll rules fl buf = (LexOutcome.ok toks, tr) → joinPieces tr = buf.source := by
  intro fl
  induction fl with
  | zero =>
    intro buf hinv toks tr h
    rw [lexAll] at h
    cases h
  | succ f ih =>
    intro buf hinv toks tr h
    cases hnc : nextCall rules buf with
    | mk res tr1 =>
      cases res with
      | tok t loc b2 =>
        have hnl : nextLoop rules buf.idx (buf.source.length + 2) buf =
            (NextRes.tok t loc b2, tr1) := hnc
        rcases nextLoop_pieces rules buf.idx (buf.source.length + 2) buf
          (NextRes.tok t loc b2) tr1 hinv hnl with ⟨htok, _⟩
        rcases htok t loc b2 rfl with ⟨hjoin1, hinv2⟩
        rw [lexAll_succ_tok f hnc] at h
        cases ho : lexAll rules f b2 with
        | mk out2 tr2 =>
          rw [ho] at h
          cases out2 with
          | ok l =>
            have htr : tr1 ++ tr2 = tr := congrArg Prod.snd h
            rw [← htr, joinPieces_append, ih b2 hinv2 l tr2 ho, ← hjoin1]
          | unmatched l c s =>
            have h1 := congrArg Prod.fst h
            rw [consOutcome] at h1
            cases h1
          | unwrapPanic l =>
            have h1 := congrArg Prod.fst h
            rw [consOutcome] at h1
            cases h1
          | noFuel =>
            have h1 := congrArg Prod.fst h
            rw [consOutcome] at h1
            cases h1
      | done b =>
        have hnl : nextLoop rules buf.idx (buf.source.length + 2) buf =
            (NextRes.done b, tr1) := hnc
        rcases nextLoop_pieces rules buf.idx (buf.source.length + 2) buf
          (NextRes.done b) tr1 hinv hnl with ⟨_, hdone⟩
        rw [lexAll_succ_done f hnc] at h
        cases h
        exact hdone b rfl
      | panicUnmatched c loc =>
        rw [lexAll_succ_unmatched f hnc] at h
        cases h
      | panicUnwrap =>
        rw [lexAll_succ_unwrap f hnc] at h
        cases h
      | noFuel =>
        rw [lexAll_succ_nofuel f hnc] at h
        cases h

/-- `utf8Len` distributes over append. -/
theorem utf8Len_append (a b : List Char) : utf8Len (a ++ b) = utf8Len a + utf8Len b := by
  induction a with
  | nil => simp [utf8Len]
  | cons c cs ih => simp [utf8Len, ih, Nat.add_assoc]

/-- The span chain of any trace is contiguous from its starting offset to
the starting offset plus the total byte length of the matched texts. -/
theorem spanChain_contiguous :
    ∀ (tr : List MatchRec) (o : Nat),
      Contiguous o (o + utf8Len (joinPieces tr)) (spanChain o tr) := by
  intro tr
  induction tr with
  | nil => intro o; simp [spanChain, Contiguous, joinPieces_nil, utf8Len]
  | cons m ms ih =>
    intro o
    rw [spanChain, Contiguous]
    refine ⟨rfl, ?_⟩
    rw [joinPieces_cons, utf8Len_append, ← Nat.add_assoc]
    exact ih (o + utf8Len (pieceOf m))

/-- **C3** (confirmed).  For every rule table and every input whose run ends
in clean exhaustion, the matched texts of all fired matches — emitted and
skipped — concatenate, in match order, to exactly the original input; the
corresponding byte spans are contiguous from byte 0 to the input's byte
length, with no overlaps and no gaps. -/
theorem c3_coverage {τ : Type} (rules : List (Rule τ)) (input : List Char) (fuel : Nat)
    (toks : List (τ × SrcLoc)) (tr : List MatchRec)
    (hrun : lexAll rules fuel (initBuf input) = (LexOutcome.ok toks, tr)) :
    joinPieces tr = input ∧ Contiguous 0 (utf8Len input) (spanChain 0 tr) := by
  have hinv : (initBuf input).empty = true → (initBuf input).source = [] :=
    fun h => absurd h Bool.false_ne_true
  have h1 : joinPieces tr = input :=
    lexAll_pieces rules fuel (initBuf input) hinv toks tr hrun
  refine ⟨h1, ?_⟩
  have h2 := spanChain_contiguous tr 0
  rw [h1] at h2
  simpa using h2

/-- Witness for C3: the end-to-end example run on `"123 abc"` ends cleanly;
its four matched texts (`"123"`, `" "`, `"abc"` and the empty eof match)
concatenate back to the input, with spans contiguous from 0 to 7. -/
theorem c3_coverage_witness :
    joinPieces
        [⟨1, String.toList "123 abc", 3⟩, ⟨0, String.toList " abc", 1⟩,
         ⟨2, String.toList "abc", 3⟩, ⟨3, [], 0⟩] = String.toList "123 abc" ∧
    Contiguous 0 (utf8Len (String.toList "123 abc"))
      (spanChain 0
        [⟨1, String.toList "123 abc", 3⟩, ⟨0, String.toList " abc", 1⟩,
         ⟨2, String.toList "abc", 3⟩, ⟨3, [], 0⟩]) :=
  c3_coverage c1Rules (String.toList "123 abc") 9
    [(ExToken.Number 123, ⟨1, 1, 1, 3, 0, 3⟩),
     (ExToken.Word ['a', 'b', 'c'], ⟨1, 5, 1, 7, 3, 6⟩),
     (ExToken.EndOfFile, ⟨1, 8, 1, 8, 6, 6⟩)]
    [⟨1, String.toList "123 abc", 3⟩, ⟨0, String.toList " abc", 1⟩,
     ⟨2, String.toList "abc", 3⟩, ⟨3, [], 0⟩]
    (by decide)

/-- A call starting on an exhausted buffer immediately returns `None` and
fires nothing. -/
theorem nextLoop_empty_trace {τ : Type} (rules : List (Rule τ)) (st fl : Nat) (buf : LexBuf)
    (hemp : buf.empty = true) :
    (nextLoop rules st fl buf).2 = [] ∧
    ∀ t loc b', (nextLoop rules st fl buf).1 ≠ NextRes.tok t loc b' := by
  cases fl with
  | zero =>
    refine ⟨rfl, ?_⟩
    intro t loc b' h
    cases h
  | succ f =>
    rw [nextLoop_succ_inl f (nextIter_empty rules st buf hemp)]
    refine ⟨rfl, ?_⟩
    intro t loc b' h
    cases h

/-- Iterating from an exhausted buffer collects nothing. -/
theorem lexAll_empty_trace {τ : Type} (rules : List (Rule τ)) (fl : Nat) (buf : LexBuf)
    (hemp : buf.empty = true) : (lexAll rules fl buf).2 = [] := by
  cases fl with
  | zero => rfl
  | succ f =>
    have hnc : nextCall rules buf = (NextRes.done buf, []) :=
      nextLoop_succ_inl (buf.source.length + 1) (nextIter_empty rules buf.idx buf hemp)
    rw [lexAll_succ_done f hnc]

/-- Trace soundness for one call: every recorded match names a rule present
at that index in the table whose matcher succeeded on the recorded source
with the recorded length. -/
theorem nextLoop_trace_sound {τ : Type} (rules : List (Rule τ)) (st : Nat) :
    ∀ (fl : Nat) (buf : LexBuf) (res : NextRes τ) (tr : List MatchRec),
      nextLoop rules st fl buf = (res, tr) →
      ∀ m ∈ tr, ∃ r, rules[m.rule]? = some r ∧ r.matcher m.src = some m.len := by
  intro fl
  induction fl with
  | zero =>
    intro buf res tr h m hm
    rw [nextLoop] at h
    cases h
    cases hm
  | succ f ih =>
    intro buf res tr h m hm
    cases hemp : buf.empty with
    | true =>
      rw [nextLoop_succ_inl f (nextIter_empty rules st buf hemp)] at h
      cases h
      cases hm
    | false =>
      cases hfind : findRuleIdx rules (markEmpty buf).source with
      | none =>
        rw [nextLoop_succ_inl f (nextIter_none rules st buf hemp hfind)] at h
        cases h
        cases hm
      | some p =>
        rcases p with ⟨i, r, n⟩
        have hsound := findRuleIdx_sound rules (markEmpty buf).source i r n hfind
        cases hsm : stepMatch st (markEmpty buf) r n with
        | inl res0 =>
          have hiter := nextIter_some rules st buf i n r hemp hfind
          rw [hsm] at hiter
          rw [nextLoop_succ_inl f hiter] at h
          cases h
          cases hm with
          | head => exact ⟨r, hsound.1, hsound.2⟩
          | tail _ hm2 => cases hm2
        | inr b2 =>
          have hiter := nextIter_some rules st buf i n r hemp hfind
          rw [hsm] at hiter
          rw [nextLoop_succ_inr f hiter] at h
          cases hrec : nextLoop rules st f b2 with
          | mk res2 tr2 =>
            rw [hrec] at h
            cases h
            rcases List.mem_append.mp hm with hm1 | hm2
            · cases hm1 with
              | head => exact ⟨r, hsound.1, hsound.2⟩
              | tail _ hm0 => cases hm0
            · exact ih b2 res2 tr2 hrec m hm2

/-- Trace soundness for a whole run. -/
theorem lexAll_trace_sound {τ : Type} (rules : List (Rule τ)) :
    ∀ (fl : Nat) (buf : LexBuf) (out : LexOutcome τ) (tr : List MatchRec),
      lexAll rules fl buf = (out, tr) →
      ∀ m ∈ tr, ∃ r, rules[m.rule]? = some r ∧ r.matcher m.src = some m.len := by
  intro fl
  induction fl with
  | zero =>
    intro buf out tr h m hm
    rw [lexAll] at h
    cases h
    cases hm
  | succ f ih =>
    intro buf out tr h m hm
    cases hnc : nextCall rules buf with
    | mk res tr1 =>
      have hnl : nextLoop rules buf.idx (buf.source.length + 2) buf = (res, tr1) := hnc
      cases res with
      | tok t loc b2 =>
        rw [lexAll_succ_tok f hnc] at h
        cases ho : lexAll rules f b2 with
        | mk out2 tr2 =>
          rw [ho] at h
          cases h
          rcases List.mem_append.mp hm with hm1 | hm2
          · exact nextLoop_trace_sound rules buf.idx (buf.source.length + 2) buf
              (NextRes.tok t loc b2) _ hnl m hm1
          · exact ih b2 _ _ ho m hm2
      | done b =>
        rw [lexAll_succ_done f hnc] at h
        cases h
        exact nextLoop_trace_sound rules buf.idx (buf.source.length + 2) buf
          (NextRes.done b) _ hnl m hm
      | panicUnmatched c loc =>
        rw [lexAll_succ_unmatched f hnc] at h
        cases h
        exact nextLoop_trace_sound rules buf.idx (buf.source.length + 2) buf
          (NextRes.panicUnmatched c loc) _ hnl m hm
      | panicUnwrap =>
        rw [lexAll_succ_unwrap f hnc] at h
        cases h
        exact nextLoop_trace_sound rules buf.idx (buf.source.length + 2) buf
          NextRes.panicUnwrap _ hnl m hm
      | noFuel =>
        rw [lexAll_succ_nofuel f hnc] at h
        cases h
        exact nextLoop_trace_sound rules buf.idx (buf.source.length + 2) buf
          NextRes.noFuel _ hnl m hm

/-- Counting respects pointwise implication of the predicates. -/
theorem countP_le_of_imp {α : Type} (p q : α → Bool) :
    ∀ (l : List α), (∀ a ∈ l, p a = true → q a = true) →
      l.countP p ≤ l.countP q := by
  intro l
  induction l with
  | nil => intro _; exact Nat.le_refl 0
  | cons a as ih =>
    intro h
    have htail := ih (fun x hx hpx => h x (List.mem_cons_of_mem a hx) hpx)
    rw [List.countP_cons, List.countP_cons]
    cases hp : p a with
    | true =>
      have hq := h a (List.mem_cons_self a as) hp
      rw [hq]
      simpa using htail
    | false =>
      cases hq : q a <;> simp <;> omega

/-- Within one call starting on a live buffer, at most one match fires on
empty remaining source; and if the call emits a token whose buffer is still
live, no match fired on empty source at all. -/
theorem nextLoop_cntEmpty {τ : Type} (rules : List (Rule τ)) (st : Nat) :
    ∀ (fl : Nat) (buf : LexBuf) (res : NextRes τ) (tr : List MatchRec),
      buf.empty = false → nextLoop rules st fl buf = (res, tr) →
      tr.countP (fun m => m.src.isEmpty) ≤ 1 ∧
      (∀ t loc b', res = NextRes.tok t loc b' → b'.empty = false →
        tr.countP (fun m => m.src.isEmpty) = 0) := by
  intro fl
  induction fl with
  | zero =>
    intro buf res tr hemp h
    rw [nextLoop] at h
    cases h
    exact ⟨by simp, fun t loc b' heq hbe => by simp⟩
  | succ f ih =>
    intro buf res tr hemp h
    cases hfind : findRuleIdx rules (markEmpty buf).source with
    | none =>
      rw [nextLoop_succ_inl f (nextIter_none rules st buf hemp hfind)] at h
      cases h
      exact ⟨by simp, fun t loc b' heq hbe => by simp⟩
    | some p =>
      rcases p with ⟨i, r, n⟩
      cases hsrc : buf.source with
      | nil =>
        have hmemp : (markEmpty buf).empty = true := markEmpty_empty_of_nil buf hsrc
        have hmsrc : (markEmpty buf).source = [] := by rw [markEmpty_source, hsrc]
        cases hsm : stepMatch st (markEmpty buf) r n with
        | inl res0 =>
          have hiter := nextIter_some rules st buf i n r hemp hfind
          rw [hsm] at hiter
          rw [nextLoop_succ_inl f hiter] at h
          cases h
          constructor
          · simp [List.countP_cons, hmsrc]
          · intro t loc b' heq hbe
            rcases stepMatch_inl_cases st (markEmpty buf) r n _ hsm with
              ⟨t0, loc0, b0, heq0, hbsrc, hbemp⟩ | heq0
            · rw [heq0] at heq
              cases heq
              rw [hbemp, hmemp] at hbe
              cases hbe
            · rw [heq0] at heq
              cases heq
        | inr b2 =>
          have hiter := nextIter_some rules st buf i n r hemp hfind
          rw [hsm] at hiter
          rw [nextLoop_succ_inr f hiter] at h
          have hb2 : b2.empty = true := by
            rcases stepMatch_inr st (markEmpty buf) r n b2 hsm with ⟨_, hbemp⟩
            rw [hbemp, hmemp]
          rcases nextLoop_empty_trace rules st f b2 hb2 with ⟨htr2, hntok⟩
          cases h
          constructor
          · rw [htr2]
            simp [List.countP_cons, hmsrc]
          · intro t loc b' heq hbe
            exact absurd heq (hntok t loc b')
      | cons c0 rest =>
        have hmeq : markEmpty buf = buf := markEmpty_of_cons buf c0 rest hsrc
        have hmsrc : (markEmpty buf).source = c0 :: rest := by rw [markEmpty_source, hsrc]
        cases hsm : stepMatch st (markEmpty buf) r n with
        | inl res0 =>
          have hiter := nextIter_some rules st buf i n r hemp hfind
          rw [hsm] at hiter
          rw [nextLoop_succ_inl f hiter] at h
          cases h
          constructor
          · simp [List.countP_cons, hmsrc]
          · intro t loc b' heq hbe
            simp [List.countP_cons, hmsrc]
        | inr b2 =>
          have hb2emp : b2.empty = false := by
            rcases stepMatch_inr st (markEmpty buf) r n b2 hsm with ⟨_, hbemp⟩
            rw [hbemp, hmeq]
            exact hemp
          have hiter := nextIter_some rules st buf i n r hemp hfind
          rw [hsm] at hiter
          rw [nextLoop_succ_inr f hiter] at h
          cases hrec : nextLoop rules st f b2 with
          | mk res2 tr2 =>
            rw [hrec] at h
            cases h
            rcases ih b2 res2 tr2 hb2emp hrec with ⟨ih1, ih2⟩
            constructor
            · show List.countP (fun m => m.src.isEmpty)
                (⟨i, (markEmpty buf).source, n⟩ :: tr2) ≤ 1
              rw [List.countP_cons]
              simp only [hmsrc]
              simpa using ih1
            · intro t loc b' heq hbe
              have h0 := ih2 t loc b' heq hbe
              show List.countP (fun m => m.src.isEmpty)
                (⟨i, (markEmpty buf).source, n⟩ :: tr2) = 0
              rw [List.countP_cons]
              simp only [hmsrc]
              simpa using h0

/-- Over a whole run from a live buffer, at most one match fires on empty
remaining source. -/
theorem lexAll_cntEmpty {τ : Type} (rules : List (Rule τ)) :
    ∀ (fl : Nat) (buf : LexBuf) (out : LexOutcome τ) (tr : List MatchRec),
      buf.empty = false → lexAll rules fl buf = (out, tr) →
      tr.countP (fun m => m.src.isEmpty) ≤ 1 := by
  intro fl
  induction fl with
  | zero =>
    intro buf out tr hemp h
    rw [lexAll] at h
    cases h
    simp
  | succ f ih =>
    intro buf out tr hemp h
    cases hnc : nextCall rules buf with
    | mk res tr1 =>
      have hnl : nextLoop rules buf.idx (buf.source.length + 2) buf = (res, tr1) := hnc
      cases res with
      | tok t loc b2 =>
        rcases nextLoop_cntEmpty rules buf.idx (buf.source.length + 2) buf
          (NextRes.tok t loc b2) tr1 hemp hnl with ⟨h1, h2⟩
        rw [lexAll_succ_tok f hnc] at h
        cases ho : lexAll rules f b2 with
        | mk out2 tr2 =>
          rw [ho] at h
          cases h
          show List.countP (fun m => m.src.isEmpty) (tr1 ++ tr2) ≤ 1
          rw [List.countP_append]
          cases hb2 : b2.empty with
          | false =>
            have hz := h2 t loc b2 rfl hb2
            have ht2 := ih b2 out2 tr2 hb2 ho
            omega
          | true =>
            have htr2 : tr2 = [] := by
              have := lexAll_empty_trace rules f b2 hb2
              rw [ho] at this
              exact this
            rw [htr2]
            simpa using h1
      | done b =>
        rcases nextLoop_cntEmpty rules buf.idx (buf.source.length + 2) buf
          (NextRes.done b) tr1 hemp hnl with ⟨h1, _⟩
        rw [lexAll_succ_done f hnc] at h
        cases h
        exact h1
      | panicUnmatched c loc =>
        rcases nextLoop_cntEmpty rules buf.idx (buf.source.length + 2) buf
          (NextRes.panicUnmatched c loc) tr1 hemp hnl with ⟨h1, _⟩
        rw [lexAll_succ_unmatched f hnc] at h
        cases h
        exact h1
      | panicUnwrap =>
        rcases nextLoop_cntEmpty rules buf.idx (buf.source.length + 2) buf
          NextRes.panicUnwrap tr1 hemp hnl with ⟨h1, _⟩
        rw [lexAll_succ_unwrap f hnc] at h
        cases h
        exact h1
      | noFuel =>
        rcases nextLoop_cntEmpty rules buf.idx (buf.source.length + 2) buf
          NextRes.noFuel tr1 hemp hnl with ⟨h1, _⟩
        rw [lexAll_succ_nofuel f hnc] at h
        cases h
        exact h1

/-- **C6** (confirmed).  An EndOfInput rule — one whose matcher only ever
succeeds on empty remaining text, as the `eof` sentinel (regex `^\z`)
does — fires only when the remaining input is empty, and over a whole
tokenization it fires at most once. -/
theorem c6_eof_once {τ : Type} (rules : List (Rule τ)) (i : Nat) (r : Rule τ)
    (hi : rules[i]? = some r) (heof : ∀ s n, r.matcher s = some n → s = [])
    (input : List Char) (fuel : Nat) (out : LexOutcome τ) (tr : List MatchRec)
    (hrun : lexAll rules fuel (initBuf input) = (out, tr)) :
    (∀ m ∈ tr, m.rule = i → m.src = []) ∧
    tr.countP (fun m => m.rule == i) ≤ 1 := by
  have hfires : ∀ m ∈ tr, m.rule = i → m.src = [] := by
    intro m hm hmi
    rcases lexAll_trace_sound rules fuel (initBuf input) out tr hrun m hm with ⟨r2, hr2, hm2⟩
    rw [hmi, hi] at hr2
    have : r = r2 := Option.some.inj hr2
    rw [← this] at hm2
    exact heof m.src m.len hm2
  refine ⟨hfires, ?_⟩
  have hmono : tr.countP (fun m => m.rule == i) ≤ tr.countP (fun m => m.src.isEmpty) := by
    apply countP_le_of_imp
    intro m hm hpm
    have hmi : m.rule = i := by simpa using hpm
    rw [hfires m hm hmi]
    rfl
  have hcnt := lexAll_cntEmpty rules fuel (initBuf input) out tr rfl hrun
  exact Nat.le_trans hmono hcnt

/-- Witness for C6: in the end-to-end example run on `"123 abc"` the eof
rule (index 3) fires exactly once. -/
theorem c6_eof_once_witness :
    List.countP (fun m => m.rule == 3)
      [(⟨1, String.toList "123 abc", 3⟩ : MatchRec), ⟨0, String.toList " abc", 1⟩,
       ⟨2, String.toList "abc", 3⟩, ⟨3, [], 0⟩] ≤ 1 :=
  (c6_eof_once c1Rules 3 eofEmitRule rfl
    (fun s n hm => by
      cases s with
      | nil => rfl
      | cons c cs => cases hm)
    (String.toList "123 abc") 9
    (LexOutcome.ok
      [(ExToken.Number 123, ⟨1, 1, 1, 3, 0, 3⟩),
       (ExToken.Word ['a', 'b', 'c'], ⟨1, 5, 1, 7, 3, 6⟩),
       (ExToken.EndOfFile, ⟨1, 8, 1, 8, 6, 6⟩)])
    [⟨1, String.toList "123 abc", 3⟩, ⟨0, String.toList " abc", 1⟩,
     ⟨2, String.toList "abc", 3⟩, ⟨3, [], 0⟩]
    (by decide)).2

/-- The post-loop check never reports fuel exhaustion. -/
theorem finishNext_ne_noFuel {τ : Type} (b : LexBuf) :
    finishNext (τ := τ) b ≠ NextRes.noFuel := by
  rw [finishNext]
  split
  · intro h; cases h
  · split <;> (intro h; cases h)

/-- The post-loop check never returns a token. -/
theorem finishNext_ne_tok {τ : Type} (b : LexBuf) (t : τ) (loc : SrcLoc) (b2 : LexBuf) :
    finishNext (τ := τ) b ≠ NextRes.tok t loc b2 := by
  rw [finishNext]
  split
  · intro h; cases h
  · split <;> (intro h; cases h)

/-- A call on an exhausted buffer with at least one unit of fuel returns
`None`. -/
theorem nextLoop_empty_res {τ : Type} (rules : List (Rule τ)) (st fl : Nat) (buf : LexBuf)
    (hemp : buf.empty = true) (h1 : 1 ≤ fl) :
    (nextLoop rules st fl buf).1 = NextRes.done buf := by
  cases fl with
  | zero => exact absurd h1 (by omega)
  | succ f => rw [nextLoop_succ_inl f (nextIter_empty rules st buf hemp)]

/-- Iterating from an exhausted buffer with at least one unit of fuel ends
cleanly at once. -/
theorem lexAll_empty_res {τ : Type} (rules : List (Rule τ)) (fl : Nat) (buf : LexBuf)
    (hemp : buf.empty = true) (h1 : 1 ≤ fl) :
    (lexAll rules fl buf).1 = LexOutcome.ok [] := by
  cases fl with
  | zero => exact absurd h1 (by omega)
  | succ f =>
    have hnc : nextCall rules buf = (NextRes.done buf, []) :=
      nextLoop_succ_inl (buf.source.length + 1) (nextIter_empty rules buf.idx buf hemp)
    rw [lexAll_succ_done f hnc]

/-- Fuel sufficiency for one call: when every matcher consumes at least one
character on non-empty remaining text, fuel `|source| + 2` never runs out. -/
theorem nextLoop_fuel {τ : Type} (rules : List (Rule τ))
    (hpos : ∀ r ∈ rules, ∀ s n, r.matcher s = some n → s ≠ [] → 1 ≤ n) (st : Nat) :
    ∀ (fl : Nat) (buf : LexBuf), buf.source.length + 2 ≤ fl →
      (nextLoop rules st fl buf).1 ≠ NextRes.noFuel := by
  intro fl
  induction fl with
  | zero => intro buf hle; exact absurd hle (by omega)
  | succ f ih =>
    intro buf hle
    cases hemp : buf.empty with
    | true =>
      rw [nextLoop_succ_inl f (nextIter_empty rules st buf hemp)]
      intro h; cases h
    | false =>
      cases hfind : findRuleIdx rules (markEmpty buf).source with
      | none =>
        rw [nextLoop_succ_inl f (nextIter_none rules st buf hemp hfind)]
        exact finishNext_ne_noFuel (markEmpty buf)
      | some p =>
        rcases p with ⟨i, r, n⟩
        have hsound := findRuleIdx_sound rules (markEmpty buf).source i r n hfind
        cases hsm : stepMatch st (markEmpty buf) r n with
        | inl res0 =>
          have hiter := nextIter_some rules st buf i n r hemp hfind
          rw [hsm] at hiter
          rw [nextLoop_succ_inl f hiter]
          rcases stepMatch_inl_cases st (markEmpty buf) r n res0 hsm with
            ⟨t0, loc0, b0, heq0, _, _⟩ | heq0 <;> rw [heq0] <;> (intro h; cases h)
        | inr b2 =>
          have hiter := nextIter_some rules st buf i n r hemp hfind
          rw [hsm] at hiter
          rw [nextLoop_succ_inr f hiter]
          show (nextLoop rules st f b2).1 ≠ NextRes.noFuel
          rcases stepMatch_inr st (markEmpty buf) r n b2 hsm with ⟨hb2src, hb2emp⟩
          cases hsrc : buf.source with
          | nil =>
            have hb2 : b2.empty = true := by
              rw [hb2emp, markEmpty_empty_of_nil buf hsrc]
            rw [nextLoop_empty_res rules st f b2 hb2 (by omega)]
            intro h; cases h
          | cons c0 rest =>
            have hmem : r ∈ rules := List.getElem?_mem hsound.1
            have hmsrc : (markEmpty buf).source = c0 :: rest := by
              rw [markEmpty_source, hsrc]
            have hn1 : 1 ≤ n := by
              refine hpos r hmem (markEmpty buf).source n hsound.2 ?_
              rw [hmsrc]
              intro h; cases h
            apply ih b2
            have hlen2 : b2.source.length = (markEmpty buf).source.length - n := by
              rw [hb2src, List.length_drop]
            have hlen3 : (markEmpty buf).source.length = buf.source.length := by
              rw [markEmpty_source]
            have hlen4 : buf.source.length = rest.length + 1 := by
              rw [hsrc]
              rfl
            omega

/-- Single-call progress: a call starting on a live buffer that emits a
token either consumed at least one character or exhausted the input. -/
theorem nextLoop_tok_progress {τ : Type} (rules : List (Rule τ))
    (hpos : ∀ r ∈ rules, ∀ s n, r.matcher s = some n → s ≠ [] → 1 ≤ n) (st : Nat) :
    ∀ (fl : Nat) (buf : LexBuf) (t : τ) (loc : SrcLoc) (b2 : LexBuf) (tr : List MatchRec),
      buf.empty = false → nextLoop rules st fl buf = (NextRes.tok t loc b2, tr) →
      b2.source.length < buf.source.length ∨ b2.empty = true := by
  intro fl
  induction fl with
  | zero =>
    intro buf t loc b2 tr hemp h
    rw [nextLoop] at h
    cases h
  | succ f ih =>
    intro buf t loc b2 tr hemp h
    cases hfind : findRuleIdx rules (markEmpty buf).source with
    | none =>
      rw [nextLoop_succ_inl f (nextIter_none rules st buf hemp hfind)] at h
      have h1 : finishNext (τ := τ) (markEmpty buf) = NextRes.tok t loc b2 :=
        congrArg Prod.fst h
      exact absurd h1 (finishNext_ne_tok (markEmpty buf) t loc b2)
    | some p =>
      rcases p with ⟨i, r, n⟩
      have hsound := findRuleIdx_sound rules (markEmpty buf).source i r n hfind
      have hmem : r ∈ rules := List.getElem?_mem hsound.1
      cases hsm : stepMatch st (markEmpty buf) r n with
      | inl res0 =>
        have hiter := nextIter_some rules st buf i n r hemp hfind
        rw [hsm] at hiter
        rw [nextLoop_succ_inl f hiter] at h
        rcases stepMatch_inl_cases st (markEmpty buf) r n res0 hsm with
          ⟨t0, loc0, b0, heq0, hbsrc, hbemp⟩ | heq0
        · subst heq0
          have h1 : NextRes.tok t0 loc0 b0 = NextRes.tok t loc b2 := congrArg Prod.fst h
          cases h1
          cases hsrc : buf.source with
          | nil =>
            refine Or.inr ?_
            rw [hbemp, markEmpty_empty_of_nil buf hsrc]
          | cons c0 rest =>
            refine Or.inl ?_
            have hmsrc : (markEmpty buf).source = c0 :: rest := by
              rw [markEmpty_source, hsrc]
            have hn1 : 1 ≤ n := by
              refine hpos r hmem (markEmpty buf).source n hsound.2 ?_
              rw [hmsrc]
              intro hx; cases hx
            have hlen2 : b2.source.length = (markEmpty buf).source.length - n := by
              rw [hbsrc, List.length_drop]
            have hlen4 : buf.source.length = rest.length + 1 := by
              rw [hsrc]; rfl
            have hlen3 : (markEmpty buf).source.length = buf.source.length := by
              rw [markEmpty_source]
            have hlen5 : (c0 :: rest).length = rest.length + 1 := rfl
            omega
        · subst heq0
          have h1 : NextRes.panicUnwrap (τ := τ) = NextRes.tok t loc b2 :=
            congrArg Prod.fst h
          cases h1
      | inr b3 =>
        have hiter := nextIter_some rules st buf i n r hemp hfind
        rw [hsm] at hiter
        rw [nextLoop_succ_inr f hiter] at h
        rcases stepMatch_inr st (markEmpty buf) r n b3 hsm with ⟨hb3src, hb3emp⟩
        cases hrec : nextLoop rules st f b3 with
        | mk res2 tr2 =>
          rw [hrec] at h
          have h1 : res2 = NextRes.tok t loc b2 := congrArg Prod.fst h
          cases hsrc : buf.source with
          | nil =>
            have hb3 : b3.empty = true := by
              rw [hb3emp, markEmpty_empty_of_nil buf hsrc]
            rcases nextLoop_empty_trace rules st f b3 hb3 with ⟨_, hntok⟩
            rw [hrec] at hntok
            exact absurd h1 (hntok t loc b2)
          | cons c0 rest =>
            have hb3e : b3.empty = false := by
              rw [hb3emp, markEmpty_of_cons buf c0 rest hsrc]
              exact hemp
            rw [h1] at hrec
            rcases ih b3 t loc b2 tr2 hb3e hrec with hlt | hbe
            · refine Or.inl ?_
              have hmsrc : (markEmpty buf).source = c0 :: rest := by
                rw [markEmpty_source, hsrc]
              have hn1 : 1 ≤ n := by
                refine hpos r hmem (markEmpty buf).source n hsound.2 ?_
                rw [hmsrc]
                intro hx; cases hx
              have hlen2 : b3.source.length = (markEmpty buf).source.length - n := by
                rw [hb3src, List.length_drop]
              have hlen4 : buf.source.length = rest.length + 1 := by
                rw [hsrc]; rfl
              have hlen3 : (markEmpty buf).source.length = buf.source.length := by
                rw [markEmpty_source]
              have hlen5 : (c0 :: rest).length = rest.length + 1 := rfl
              omega
            · exact Or.inr hbe

/-- `consOutcome` never fabricates fuel exhaustion. -/
theorem consOutcome_ne_noFuel {τ : Type} (p : τ × SrcLoc) (o : LexOutcome τ)
    (h : o ≠ LexOutcome.noFuel) : consOutcome p o ≠ LexOutcome.noFuel := by
  cases o with
  | ok l => intro hx; cases hx
  | unmatched l c s => intro hx; cases hx
  | unwrapPanic l => intro hx; cases hx
  | noFuel => exact absurd rfl h

/-- Fuel sufficiency for a whole run: when every matcher consumes at least
one character on non-empty remaining text, outer fuel `|source| + 2` never
runs out either. -/
theorem lexAll_fuel {τ : Type} (rules : List (Rule τ))
    (hpos : ∀ r ∈ rules, ∀ s n, r.matcher s = some n → s ≠ [] → 1 ≤ n) :
    ∀ (fl : Nat) (buf : LexBuf), buf.source.length + 2 ≤ fl →
      (lexAll rules fl buf).1 ≠ LexOutcome.noFuel := by
  intro fl
  induction fl with
  | zero => intro buf hle; exact absurd hle (by omega)
  | succ f ih =>
    intro buf hle
    cases hnc : nextCall rules buf with
    | mk res tr1 =>
      have hnl : nextLoop rules buf.idx (buf.source.length + 2) buf = (res, tr1) := hnc
      cases res with
      | tok t loc b2 =>
        rw [lexAll_succ_tok f hnc]
        show consOutcome (t, loc) (lexAll rules f b2).1 ≠ LexOutcome.noFuel
        have hemp : buf.empty = false := by
          cases hb : buf.empty with
          | false => rfl
          | true =>
            have hdone := nextLoop_empty_res rules buf.idx (buf.source.length + 2) buf hb
              (by omega)
            rw [hnl] at hdone
            cases hdone
        have hprog := nextLoop_tok_progress rules hpos buf.idx (buf.source.length + 2) buf
          t loc b2 tr1 hemp hnl
        refine consOutcome_ne_noFuel (t, loc) (lexAll rules f b2).1 ?_
        rcases hprog with hlt | hbe
        · exact ih b2 (by omega)
        · rw [lexAll_empty_res rules f b2 hbe (by omega)]
          intro h; cases h
      | done b =>
        rw [lexAll_succ_done f hnc]
        intro h; cases h
      | panicUnmatched c loc =>
        rw [lexAll_succ_unmatched f hnc]
        intro h; cases h
      | panicUnwrap =>
        rw [lexAll_succ_unwrap f hnc]
        intro h; cases h
      | noFuel =>
        have := nextLoop_fuel rules hpos buf.idx (buf.source.length + 2) buf (Nat.le_refl _)
        rw [hnl] at this
        exact absurd rfl this

/-- **C9** (corrected).  For every rule table whose matchers, on non-empty
remaining text, only ever succeed by consuming at least one character, and
for every input, tokenization is finite: fuel `|input| + 2` per call and
`|input| + 2` calls already complete the run (clean exhaustion or a
reported failure), so the modelled fuel never runs out. -/
theorem c9_terminates {τ : Type} (rules : List (Rule τ))
    (hpos : ∀ r ∈ rules, ∀ s n, r.matcher s = some n → s ≠ [] → 1 ≤ n)
    (input : List Char) :
    (lexAll rules (input.length + 2) (initBuf input)).1 ≠ LexOutcome.noFuel :=
  lexAll_fuel rules hpos (input.length + 2) (initBuf input) (Nat.le_refl _)

/-- The example table's matchers always consume at least one character on
non-empty remaining text: whitespace and the two character classes match at
least one character, and eof only matches empty text. -/
theorem c1Rules_pos :
    ∀ r ∈ c1Rules, ∀ s n, r.matcher s = some n → s ≠ [] → 1 ≤ n := by
  intro r hr s n hm hs
  have hr4 : r = wsSkipRule ∨ r = numberRule ∨ r = wordRule ∨ r = eofEmitRule := by
    simpa [c1Rules] using hr
  cases s with
  | nil => exact absurd rfl hs
  | cons c cs =>
    rcases hr4 with rfl | rfl | rfl | rfl
    · simp only [wsSkipRule, wsMatcher] at hm
      split at hm
      · cases hm; exact Nat.le_refl 1
      · cases hm
    · simp only [numberRule, digitsMatcher] at hm
      split at hm
      · cases hm
      · rename_i hlen
        cases hm
        omega
    · simp only [wordRule, lettersMatcher] at hm
      split at hm
      · cases hm
      · rename_i hlen
        cases hm
        omega
    · simp [eofEmitRule, eofMatcher] at hm

/-- Witness for C9's corrected statement: the example table satisfies the
positivity condition, so the run on `"123 abc"` completes within the fuel
bound. -/
theorem c9_terminates_witness :
    (lexAll c1Rules ((String.toList "123 abc").length + 2)
      (initBuf (String.toList "123 abc"))).1 ≠ LexOutcome.noFuel :=
  c9_terminates c1Rules c1Rules_pos (String.toList "123 abc")

end Lexr
